import Mathlib

/-! SBCL runtime, `src/runtime/os-common.c`

A shallow embedding of the OS-facing substrate of the SBCL runtime:

* `gc_managed_heap_space_p` and `gc_managed_addr_p` (heap membership oracle),
* `os_link_runtime` (linkage-table prelinking),
* `load_core_bytes` (core image loader, memory-mapping path),
* `os_zero` (zero-filling of an address range, copying-collector builds).

Addresses, sizes and `lispobj` words are natural numbers; unsigned machine
arithmetic is written with an explicit reduction modulo `2 ^ N_WORD_BITS`.
Constants and primitives that the file only uses (space bounds,
`immobile_space_p`, `os_validate`, `mmap`, ...) are parameters of the model;
the page-rounding macros of os.h are modelled from the specification.
-/

namespace SBCL

/-! ## Machine words -/

/-- The two word sizes SBCL is built for. -/
inductive WordSize where
  | w32
  | w64
deriving DecidableEq, Repr

/-- The constant `N_WORD_BYTES`, which is also `sizeof(lispobj)`. -/
def WordSize.N_WORD_BYTES : WordSize → Nat
  | .w32 => 4
  | .w64 => 8

/-- The constant `N_WORD_BITS`. -/
def WordSize.N_WORD_BITS (w : WordSize) : Nat := 8 * w.N_WORD_BYTES

/-- Number of values of an unsigned machine word (`uword_t`, `lispobj`). -/
def WordSize.modulus (w : WordSize) : Nat := 2 ^ w.N_WORD_BITS

/-! ## Region registry and heap membership oracle -/

/-- The dynamic-space part of the layout: `LISP_FEATURE_GENCGC` selects one
dynamic space plus the `immobile_space_p` delegate, otherwise (copying
collector) there are the two semispaces. -/
inductive DynamicLayout where
  | gencgc (DYNAMIC_SPACE_START : Nat) (immobile_space_p : Nat → Bool)
  | cheneygc (DYNAMIC_0_SPACE_START DYNAMIC_1_SPACE_START : Nat)

/-- The space constants of `genesis/constants.h` and the global
`dynamic_space_size`, as seen by `gc_managed_heap_space_p`. -/
structure Layout where
  word : WordSize
  READ_ONLY_SPACE_START : Nat
  READ_ONLY_SPACE_END : Nat
  STATIC_SPACE_START : Nat
  STATIC_SPACE_END : Nat
  dynamic_space_size : Nat
  dynamic : DynamicLayout

/-- Unsigned word addition `a + b` as the C code computes it on `lispobj`. -/
def word_add (w : WordSize) (a b : Nat) : Nat := (a + b) % w.modulus

/-- Unsigned word subtraction `a - b` on word-sized operands. -/
def word_sub (w : WordSize) (a b : Nat) : Nat :=
  (a % w.modulus + (w.modulus - b % w.modulus)) % w.modulus

/-- The function `gc_managed_heap_space_p` of os-common.c. -/
def gc_managed_heap_space_p (L : Layout) (addr : Nat) : Bool :=
  (decide (L.READ_ONLY_SPACE_START ≤ addr) && decide (addr < L.READ_ONLY_SPACE_END))
  || (decide (L.STATIC_SPACE_START ≤ addr) && decide (addr < L.STATIC_SPACE_END))
  || (match L.dynamic with
      | .gencgc DYNAMIC_SPACE_START immobile_space_p =>
          (decide (DYNAMIC_SPACE_START ≤ addr)
            && decide (addr < word_add L.word DYNAMIC_SPACE_START L.dynamic_space_size))
          || immobile_space_p addr
      | .cheneygc DYNAMIC_0_SPACE_START DYNAMIC_1_SPACE_START =>
          (decide (DYNAMIC_0_SPACE_START ≤ addr)
            && decide (addr < word_add L.word DYNAMIC_0_SPACE_START L.dynamic_space_size))
          || (decide (DYNAMIC_1_SPACE_START ≤ addr)
            && decide (addr < word_add L.word DYNAMIC_1_SPACE_START L.dynamic_space_size)))

/-- Kinds of memory region named by the specification. -/
inductive RegionKind where
  | read_only
  | static
  | dynamic
  | dynamic_generation_0
  | dynamic_generation_1
deriving DecidableEq, Repr

/-- A memory region `[start, end_)` of the specification's data model. -/
structure Region where
  kind : RegionKind
  start : Nat
  end_ : Nat
deriving DecidableEq, Repr

/-- Half-open membership `start ≤ addr < end_`. -/
def Region.contains (R : Region) (addr : Nat) : Bool :=
  decide (R.start ≤ addr) && decide (addr < R.end_)

/-- The specification's region set for the active layout: read-only, static,
and the dynamic region (generational layout) or the two dynamic generations
(copying layout).  A dynamic region ends at its start plus
`dynamic_space_size`, a machine word. -/
def spec_configured_regions (L : Layout) : List Region :=
  [⟨.read_only, L.READ_ONLY_SPACE_START, L.READ_ONLY_SPACE_END⟩,
   ⟨.static, L.STATIC_SPACE_START, L.STATIC_SPACE_END⟩] ++
  (match L.dynamic with
   | .gencgc s _ => [⟨.dynamic, s, word_add L.word s L.dynamic_space_size⟩]
   | .cheneygc s0 s1 =>
       [⟨.dynamic_generation_0, s0, word_add L.word s0 L.dynamic_space_size⟩,
        ⟨.dynamic_generation_1, s1, word_add L.word s1 L.dynamic_space_size⟩])

/-- The immobile-region delegate of the generational layout; the copying
layout has none. -/
def spec_immobile_delegate (L : Layout) (addr : Nat) : Bool :=
  match L.dynamic with
  | .gencgc _ immobile_space_p => immobile_space_p addr
  | .cheneygc _ _ => false

/-! ## Thread registry and `gc_managed_addr_p` -/

/-- The fields of `struct thread` read by `gc_managed_addr_p`; each is a
`lispobj *` pointer, held as a byte address. -/
structure thread where
  control_stack_start : Nat
  control_stack_end : Nat
  binding_stack_start : Nat
deriving DecidableEq, Repr

/-- Pointer addition `p + n` for a pointer to objects of `stride` bytes, as
the compiled code computes it: the byte address advances by `n * stride` and
the sum wraps around modulo `2 ^ N_WORD_BITS`. -/
def ptr_add (w : WordSize) (stride p n : Nat) : Nat := (p + n * stride) % w.modulus

/-- Pointer addition `p + n` on a `lispobj *`. -/
def lispobj_ptr_add (w : WordSize) (p n : Nat) : Nat := ptr_add w w.N_WORD_BYTES p n

/-- Body of the `for_each_thread` loop of `gc_managed_addr_p`, over the
threads still to visit. -/
def gc_managed_addr_p_threads (w : WordSize) (BINDING_STACK_SIZE addr : Nat) :
    List thread → Bool
  | [] => false
  | th :: rest =>
      if decide (th.control_stack_start ≤ addr) && decide (addr < th.control_stack_end) then
        true
      else if decide (th.binding_stack_start ≤ addr)
          && decide (addr < lispobj_ptr_add w th.binding_stack_start BINDING_STACK_SIZE) then
        true
      else
        gc_managed_addr_p_threads w BINDING_STACK_SIZE addr rest

/-- The function `gc_managed_addr_p` of os-common.c; `all_threads` is the
list walked by `for_each_thread`, `BINDING_STACK_SIZE` the constant of that
name. -/
def gc_managed_addr_p (L : Layout) (BINDING_STACK_SIZE : Nat) (all_threads : List thread)
    (addr : Nat) : Bool :=
  if gc_managed_heap_space_p L addr then true
  else gc_managed_addr_p_threads L.word BINDING_STACK_SIZE addr all_threads

/-! ## Linkage-table prelinking -/

/-- One call `arch_write_linkage_table_entry(index, target, datap)`. -/
structure LinkageWrite where
  index : Int
  target : Nat
  datap : Bool
deriving DecidableEq, Repr

/-- Build features and globals read by `os_link_runtime`.
`lisp_linkage_values` is the word array behind the symbol of that name,
indexed in words from its address; `none` stands for the weak symbol being
unresolved, so that `&lisp_linkage_values` is null. -/
structure LinkConfig where
  word : WordSize
  LISP_FEATURE_LINKAGE_TABLE : Bool
  LISP_FEATURE_WIN32 : Bool
  LINKAGE_TABLE_SPACE_START : Nat
  os_vm_page_size : Nat
  lisp_linkage_values : Option (Nat → Nat)

/-- What `os_link_runtime` changes: the global
`lisp_linkage_table_n_prelinked`, the linkage-table writes made so far (in
call order) and the `os_validate_recommit` calls made so far. -/
structure LinkState where
  lisp_linkage_table_n_prelinked : Int
  linkage_writes : List LinkageWrite
  recommits : List (Nat × Nat)

/-- Reduction of an integer to the range of the 32-bit C type `int`
(two's complement). -/
def int_wrap (x : Int) : Int := (x + 2 ^ 31) % 2 ^ 32 - 2 ^ 31

/-- Conversion of an unsigned value to the C type `int`. -/
def to_int (x : Nat) : Int := int_wrap (x : Int)

/-- How often `count--` is non-zero before the `int` counter reaches zero:
`count` itself when it is not negative; a negative counter runs through the
two's-complement wrap-around first. -/
def int_iterations (count : Int) : Nat := (count % 2 ^ 32).toNat

/-- The `for ( ; count-- ; entry_index++ )` loop of `os_link_runtime`;
`count` is the number of iterations left, `ptr` the cursor into the array. -/
def os_link_runtime_loop (cfg : LinkConfig) (vals : Nat → Nat) :
    Nat → Nat → Int → LinkState → LinkState
  | 0, _, _, s => s
  | count + 1, ptr, entry_index, s =>
      let s1 : LinkState :=
        if entry_index = 0 ∧ cfg.LISP_FEATURE_WIN32 = true then
          { s with recommits := s.recommits ++ [(cfg.LINKAGE_TABLE_SPACE_START, cfg.os_vm_page_size)] }
        else s
      let datap : Bool := decide (vals ptr = cfg.word.modulus - 1)
      let ptr1 : Nat := if datap then ptr + 1 else ptr
      let s2 : LinkState :=
        { s1 with linkage_writes := s1.linkage_writes ++ [⟨entry_index, vals ptr1, datap⟩] }
      os_link_runtime_loop cfg vals count (ptr1 + 1) (int_wrap (entry_index + 1)) s2

/-- The function `os_link_runtime` of os-common.c. -/
def os_link_runtime (cfg : LinkConfig) (s : LinkState) : LinkState :=
  if cfg.LISP_FEATURE_LINKAGE_TABLE then
    match cfg.lisp_linkage_values with
    | some vals =>
        let count : Int := to_int (vals 0)
        os_link_runtime_loop cfg vals (int_iterations count) 1 0
          { s with lisp_linkage_table_n_prelinked := count }
    | none => s
  else s

/-- A logical entry of the prelink descriptor array. -/
inductive LinkRef where
  | function (target : Nat)
  | data (target : Nat)
deriving DecidableEq, Repr

/-- The words that encode a list of logical entries: one word for a function
reference, the sentinel `-1` and the address for a data reference. -/
def spec_encode (w : WordSize) : List LinkRef → List Nat
  | [] => []
  | .function a :: rest => a :: spec_encode w rest
  | .data a :: rest => (w.modulus - 1) :: a :: spec_encode w rest

/-- The linkage-table entries the specification expects for a list of logical
entries, numbered from `i`. -/
def spec_link_entries : Int → List LinkRef → List LinkageWrite
  | _, [] => []
  | i, .function a :: rest => ⟨i, a, false⟩ :: spec_link_entries (i + 1) rest
  | i, .data a :: rest => ⟨i, a, true⟩ :: spec_link_entries (i + 1) rest

/-- A function reference may not be the sentinel word. -/
def LinkRef.well_formed (w : WordSize) : LinkRef → Prop
  | .function a => a ≠ w.modulus - 1
  | .data _ => True

/-- The array `vals` holds the descriptor `[N, w_1, ...]` of the entries. -/
def spec_array_encodes (w : WordSize) (vals : Nat → Nat) (entries : List LinkRef) : Prop :=
  vals 0 = entries.length ∧
  ∀ i, i < (spec_encode w entries).length → vals (i + 1) = (spec_encode w entries).getD i 0

/-! ## Core image loader -/

/-- Result of a runtime routine: it returns a value, or it ends in `lose`. -/
inductive Outcome (α : Type) where
  | returned (a : α)
  | lose
deriving DecidableEq, Repr

/-- The arguments of one `mmap` call. -/
structure MmapCall where
  addr : Nat
  len : Nat
  prot : Nat
  flags : Nat
  fd : Int
  offset : Nat
deriving DecidableEq, Repr

/-- The platform constants used by `load_core_bytes`. -/
structure MmapConsts where
  OS_VM_PROT_ALL : Nat
  OS_VM_PROT_READ : Nat
  OS_VM_PROT_WRITE : Nat
  MAP_PRIVATE : Nat
  MAP_FIXED : Nat
  MAP_FAILED : Nat

/-- The arguments `load_core_bytes` passes to `mmap`: full access and
`MAP_FIXED` for a non-null `addr`, read/write access and no `MAP_FIXED` for a
null one. -/
def load_core_bytes_mmap_call (K : MmapConsts) (fd : Int) (offset addr len : Nat) : MmapCall :=
  { addr := addr, len := len,
    prot := if addr ≠ 0 then K.OS_VM_PROT_ALL else K.OS_VM_PROT_READ ||| K.OS_VM_PROT_WRITE,
    flags := K.MAP_PRIVATE ||| (if addr ≠ 0 then K.MAP_FIXED else 0),
    fd := fd, offset := offset }

/-- The function `load_core_bytes` of os-common.c on the memory-mapping path
(`LISP_FEATURE_HPUX` undefined); `mmap` gives the address the OS answers a
call with. -/
def load_core_bytes (K : MmapConsts) (mmap : MmapCall → Nat)
    (fd : Int) (offset addr len : Nat) : Outcome Nat :=
  let actual : Nat := mmap (load_core_bytes_mmap_call K fd offset addr len)
  let fail : Bool :=
    if actual = K.MAP_FAILED then true
    else if addr ≠ 0 ∧ addr ≠ actual then true
    else false
  if fail then .lose else .returned actual

/-! ## Page allocator: `os_zero` -/

/-- Byte-addressed memory. -/
abbrev Memory := Nat → Nat

/-- The calls `os_zero` makes. -/
inductive VMCall where
  | bzero (addr len : Nat)
  | os_invalidate (addr len : Nat)
  | os_validate (movable : Bool) (addr len : Nat)
  | lose
deriving DecidableEq, Repr

/-- The virtual-memory primitives of the OS-specific part of the runtime:
`os_invalidate` and `os_validate` (which answers with an address, `0` for
`NULL`), each with its effect on memory. -/
structure VMPort where
  os_invalidate : Memory → Nat → Nat → Memory
  os_validate : Memory → Bool → Nat → Nat → Nat × Memory

/-- The flag `NOT_MOVABLE` of `os_validate`, as the value of its `movable`
argument. -/
def NOT_MOVABLE : Bool := false

/-- The library routine `bzero(p, n)`: the `n` bytes from `p` become zero. -/
def bzero (mem : Memory) (p n : Nat) : Memory :=
  fun x => if p ≤ x ∧ x < p + n then 0 else mem x

/-- Modelled from the spec: the macro `os_trunc_to_page` of os.h, which is
not part of this file, clears the bits of an address below the page size,
giving the page boundary at or below it. -/
def os_trunc_to_page (os_vm_page_size a : Nat) : Nat := a - a % os_vm_page_size

/-- Modelled from the spec: the macro `os_round_up_to_page` of os.h, which is
not part of this file, rounds an address up to a page boundary: the page
size less one is added in word arithmetic and the sum truncated to a page. -/
def os_round_up_to_page (w : WordSize) (os_vm_page_size a : Nat) : Nat :=
  os_trunc_to_page os_vm_page_size (word_add w a (os_vm_page_size - 1))

/-- Modelled from the spec: the macro `os_trunc_size_to_page` of os.h, which
is not part of this file, truncates a size to a multiple of the page size. -/
def os_trunc_size_to_page (os_vm_page_size n : Nat) : Nat := n - n % os_vm_page_size

/-- The local `block_start` of `os_zero`. -/
def os_zero_block_start (w : WordSize) (os_vm_page_size addr : Nat) : Nat :=
  os_round_up_to_page w os_vm_page_size addr

/-- The parameter `length` of `os_zero` after `length -= block_start-addr`. -/
def os_zero_length (w : WordSize) (os_vm_page_size addr length : Nat) : Nat :=
  word_sub w length (word_sub w (os_zero_block_start w os_vm_page_size addr) addr)

/-- The local `block_size` of `os_zero`. -/
def os_zero_block_size (w : WordSize) (os_vm_page_size addr length : Nat) : Nat :=
  os_trunc_size_to_page os_vm_page_size (os_zero_length w os_vm_page_size addr length)

/-- Memory and calls made, in order. -/
structure VMState where
  mem : Memory
  calls : List VMCall

/-- The two conditional `bzero` calls of `os_zero`. -/
def os_zero_fragments (w : WordSize) (os_vm_page_size : Nat) (mem : Memory)
    (addr length : Nat) : VMState :=
  let block_start := os_zero_block_start w os_vm_page_size addr
  let length1 := os_zero_length w os_vm_page_size addr length
  let block_size := os_zero_block_size w os_vm_page_size addr length
  let s1 : VMState :=
    if block_start > addr then
      ⟨bzero mem addr (word_sub w block_start addr), [.bzero addr (word_sub w block_start addr)]⟩
    else ⟨mem, []⟩
  if block_size < length1 then
    ⟨bzero s1.mem (ptr_add w 1 block_start block_size) (length1 - block_size),
     s1.calls ++ [.bzero (ptr_add w 1 block_start block_size) (length1 - block_size)]⟩
  else s1

/-- The pair `os_invalidate(block_start, block_size)`;
`os_validate(NOT_MOVABLE, block_start, block_size)` of `os_zero`: the address
answered and the state after it. -/
def os_zero_revalidate (port : VMPort) (s : VMState) (block_start block_size : Nat) :
    Nat × VMState :=
  let m1 := port.os_invalidate s.mem block_start block_size
  let r := port.os_validate m1 NOT_MOVABLE block_start block_size
  (r.1, ⟨r.2, s.calls ++ [.os_invalidate block_start block_size,
                          .os_validate NOT_MOVABLE block_start block_size]⟩)

/-- A finished run of `os_zero`. -/
structure ZeroRun where
  state : VMState
  outcome : Outcome Unit

/-- The function `os_zero` of os-common.c (`LISP_FEATURE_CHENEYGC`). -/
def os_zero (w : WordSize) (os_vm_page_size : Nat) (port : VMPort) (mem : Memory)
    (addr length : Nat) : ZeroRun :=
  let block_start := os_zero_block_start w os_vm_page_size addr
  let block_size := os_zero_block_size w os_vm_page_size addr length
  let s := os_zero_fragments w os_vm_page_size mem addr length
  if block_size ≠ 0 then
    let r := os_zero_revalidate port s block_start block_size
    if r.1 = 0 ∨ r.1 ≠ block_start then
      ⟨⟨r.2.mem, r.2.calls ++ [.lose]⟩, .lose⟩
    else ⟨r.2, .returned ()⟩
  else ⟨s, .returned ()⟩

/-- Modelled from the spec: the re-validation assumption on the external
virtual-memory primitives.  Releasing a range leaves the bytes outside it
alone, and a validation answered with the requested address yields
zero-filled pages there and leaves the bytes outside the range alone. -/
def VMPort.zero_fill_on_demand (port : VMPort) : Prop :=
  (∀ (m : Memory) (a n x : Nat), ¬ (a ≤ x ∧ x < a + n) → port.os_invalidate m a n x = m x) ∧
  (∀ (m : Memory) (mv : Bool) (a n : Nat), (port.os_validate m mv a n).1 = a →
    ∀ x, (port.os_validate m mv a n).2 x = if a ≤ x ∧ x < a + n then 0 else m x)

/-- A port that behaves as the specification expects: a released range reads
as `0xDD` garbage, a validated range is mapped where it was asked for and
reads as zero. -/
def demand_zero_port : VMPort where
  os_invalidate := fun m a n x => if a ≤ x ∧ x < a + n then 0xDD else m x
  os_validate := fun m _ a n => (a, fun x => if a ≤ x ∧ x < a + n then 0 else m x)

/-- A port whose re-validation moves the block by one page. -/
def moving_port : VMPort where
  os_invalidate := fun m _ _ => m
  os_validate := fun m _ a _ => (a + 0x1000, m)

/-- A port that refuses every validation: `os_validate` answers `NULL`. -/
def refusing_port : VMPort where
  os_invalidate := fun m _ _ => m
  os_validate := fun m _ _ _ => (0, m)

/-- The specification's middle block of the range `[addr, addr+length)`
starts at the first page boundary at or above `addr`. -/
def spec_middle_block_start (os_vm_page_size addr : Nat) : Nat :=
  addr + (os_vm_page_size - addr % os_vm_page_size) % os_vm_page_size

/-- The specification's middle block of the range `[addr, addr+length)` ends
at the last page boundary at or below `addr + length`. -/
def spec_middle_block_end (os_vm_page_size addr length : Nat) : Nat :=
  (addr + length) - (addr + length) % os_vm_page_size

/-- Size of the specification's middle block: the whole pages that lie
inside `[addr, addr+length)`; zero when the range holds no full page. -/
def spec_middle_block_size (os_vm_page_size addr length : Nat) : Nat :=
  spec_middle_block_end os_vm_page_size addr length
    - spec_middle_block_start os_vm_page_size addr

/-! ## Example configurations -/

/-- A copying-collector layout whose two semispaces are adjacent: the first
ends where the second starts. -/
def adjacent_semispaces : Layout where
  word := .w32
  READ_ONLY_SPACE_START := 0x11000000
  READ_ONLY_SPACE_END := 0x11ff0000
  STATIC_SPACE_START := 0x12000000
  STATIC_SPACE_END := 0x12ff0000
  dynamic_space_size := 0x8000000
  dynamic := .cheneygc 0x30000000 0x38000000

/-- A generational layout with a 512 MiB dynamic space and an immobile space
at `[0x50300000, 0x58300000)`. -/
def gencgc_layout : Layout where
  word := .w64
  READ_ONLY_SPACE_START := 0x50000000
  READ_ONLY_SPACE_END := 0x500ff000
  STATIC_SPACE_START := 0x50200000
  STATIC_SPACE_END := 0x502ff000
  dynamic_space_size := 0x20000000
  dynamic := .gencgc 0x1000000000 (fun a => decide (0x50300000 ≤ a) && decide (a < 0x58300000))

/-- A thread whose control stack is `[0x7f0000000000, 0x7f0000200000)` and
whose binding stack starts where the control stack ends. -/
def example_thread : thread where
  control_stack_start := 0x7f0000000000
  control_stack_end := 0x7f0000200000
  binding_stack_start := 0x7f0000200000

/-- A 64-bit build with the linkage table, for a given descriptor array. -/
def link_config (vals : Option (Nat → Nat)) : LinkConfig where
  word := .w64
  LISP_FEATURE_LINKAGE_TABLE := true
  LISP_FEATURE_WIN32 := false
  LINKAGE_TABLE_SPACE_START := 0x50100000
  os_vm_page_size := 0x8000
  lisp_linkage_values := vals

/-- The descriptor array `[2, 0xA000, -1, 0xB000]` of a 64-bit image. -/
def example_descriptor : Nat → Nat :=
  fun i => [2, 0xA000, 2 ^ 64 - 1, 0xB000].getD i 0

/-- A descriptor array announcing `2 ^ 32` function references to `0xA000`. -/
def huge_descriptor : Nat → Nat :=
  fun i => if i = 0 then 2 ^ 32 else 0xA000

/-- The empty state before prelinking. -/
def LinkState.initial : LinkState := ⟨0, [], []⟩

/-- The Linux values of the `mmap` constants. -/
def linux_mmap_consts : MmapConsts where
  OS_VM_PROT_ALL := 7
  OS_VM_PROT_READ := 1
  OS_VM_PROT_WRITE := 2
  MAP_PRIVATE := 2
  MAP_FIXED := 0x10
  MAP_FAILED := 2 ^ 64 - 1

/-- A memory in which every byte reads as `0xFF`. -/
def garbage_memory : Memory := fun _ => 0xFF

end SBCL

/-! # Theorems -/

namespace SBCL

/-! ## Heap membership -/

theorem Region.contains_iff (R : Region) (addr : Nat) :
    R.contains addr = true ↔ R.start ≤ addr ∧ addr < R.end_ := by
  simp [Region.contains]

/-- The code's disjunction is membership in one of the configured regions or
acceptance by the immobile delegate. -/
theorem gc_managed_heap_space_p_iff (L : Layout) (addr : Nat) :
    gc_managed_heap_space_p L addr = true ↔
      (∃ R ∈ spec_configured_regions L, R.start ≤ addr ∧ addr < R.end_)
        ∨ spec_immobile_delegate L addr = true := by
  obtain ⟨w, ros, roe, sts, ste, sz, dyn⟩ := L
  cases dyn with
  | gencgc s imm =>
      simp only [gc_managed_heap_space_p, spec_configured_regions, spec_immobile_delegate,
        List.cons_append, List.nil_append, List.mem_cons, List.mem_singleton,
        Bool.or_eq_true, Bool.and_eq_true, decide_eq_true_eq, exists_eq_or_imp, exists_eq_left,
        List.not_mem_nil, false_and, exists_false, or_false]
      tauto
  | cheneygc s0 s1 =>
      simp only [gc_managed_heap_space_p, spec_configured_regions, spec_immobile_delegate,
        List.cons_append, List.nil_append, List.mem_cons, List.mem_singleton,
        Bool.or_eq_true, Bool.and_eq_true, decide_eq_true_eq, exists_eq_or_imp, exists_eq_left,
        List.not_mem_nil, false_and, exists_false, or_false]
      tauto

/-- C1: `gc_managed_heap_space_p addr` is true exactly when `addr` lies in the
half-open range of a configured region of the active layout or the immobile
delegate accepts it; so it is false for an address between two regions that
lies in no region. -/
theorem heap_contains_iff_in_configured_region (L : Layout) (addr : Nat) :
    (gc_managed_heap_space_p L addr = true ↔
      (∃ R ∈ spec_configured_regions L, R.start ≤ addr ∧ addr < R.end_)
        ∨ spec_immobile_delegate L addr = true)
    ∧ (∀ R1 ∈ spec_configured_regions L, ∀ R2 ∈ spec_configured_regions L,
        R1.end_ ≤ addr → addr < R2.start →
        (∀ R ∈ spec_configured_regions L, ¬ (R.start ≤ addr ∧ addr < R.end_)) →
        spec_immobile_delegate L addr = false →
        gc_managed_heap_space_p L addr = false) := by
  refine ⟨gc_managed_heap_space_p_iff L addr, ?_⟩
  intro R1 _ R2 _ _ _ hno himm
  rw [← Bool.not_eq_true, gc_managed_heap_space_p_iff]
  rintro (⟨R, hR, hin⟩ | h)
  · exact hno R hR hin
  · simp [himm] at h

/-- C4, as stated, fails: with adjacent semispaces the exclusive end of
dynamic generation 0 is the start of dynamic generation 1, so the oracle
accepts it. -/
theorem heap_contains_region_end_of_adjacent_semispaces :
    ¬ (∀ R ∈ spec_configured_regions adjacent_semispaces,
        gc_managed_heap_space_p adjacent_semispaces R.start = true
          ∧ gc_managed_heap_space_p adjacent_semispaces R.end_ = false) := by
  intro h
  have h0 := (h ⟨.dynamic_generation_0, 0x30000000, 0x38000000⟩ (by decide)).2
  revert h0
  decide

/-- C4, amended: for a configured region `R`, the oracle accepts `R.start`
when `R` is not empty, and it accepts the exclusive end `R.end_` exactly when
that address lies in another configured region or the immobile delegate
accepts it; `R` itself never contributes its end. -/
theorem heap_contains_region_boundaries (L : Layout) (R : Region)
    (hR : R ∈ spec_configured_regions L) :
    (R.start < R.end_ → gc_managed_heap_space_p L R.start = true)
    ∧ (gc_managed_heap_space_p L R.end_ = true ↔
        (∃ R2 ∈ spec_configured_regions L, R2 ≠ R ∧ R2.start ≤ R.end_ ∧ R.end_ < R2.end_)
          ∨ spec_immobile_delegate L R.end_ = true) := by
  constructor
  · intro hne
    rw [gc_managed_heap_space_p_iff]
    exact Or.inl ⟨R, hR, le_refl _, hne⟩
  · rw [gc_managed_heap_space_p_iff]
    constructor
    · rintro (⟨R2, hR2, h1, h2⟩ | h)
      · refine Or.inl ⟨R2, hR2, ?_, h1, h2⟩
        rintro rfl
        exact lt_irrefl _ h2
      · exact Or.inr h
    · rintro (⟨R2, hR2, _, h1, h2⟩ | h)
      · exact Or.inl ⟨R2, hR2, h1, h2⟩
      · exact Or.inr h

/-- Witness for C4 (amended): the static space of the generational example
layout; its start is accepted, and its end is rejected because no other
region and not the immobile space contains it. -/
theorem heap_contains_region_boundaries_witness :
    (⟨.static, 0x50200000, 0x502ff000⟩ : Region) ∈ spec_configured_regions gencgc_layout
    ∧ gc_managed_heap_space_p gencgc_layout 0x50200000 = true
    ∧ gc_managed_heap_space_p gencgc_layout 0x502ff000 = false := by
  have hR : (⟨.static, 0x50200000, 0x502ff000⟩ : Region)
      ∈ spec_configured_regions gencgc_layout := by decide
  have h := heap_contains_region_boundaries gencgc_layout _ hR
  refine ⟨hR, h.1 (by decide), ?_⟩
  rw [← Bool.not_eq_true]
  intro ht
  rcases h.2.mp ht with ⟨R2, hR2, hne, h1, h2⟩ | himm
  · simp only [spec_configured_regions, gencgc_layout, List.cons_append, List.nil_append,
      List.mem_cons, List.mem_singleton, List.not_mem_nil, or_false] at hR2
    rcases hR2 with rfl | rfl | rfl
    · revert h2; decide
    · exact hne rfl
    · revert h1; decide
  · revert himm; decide

/-! ## Managed addresses -/

/-- An address in the control stack of the example thread is managed although
the heap oracle rejects it. -/
theorem managed_contains_control_stack_example :
    gc_managed_heap_space_p gencgc_layout 0x7f0000000010 = false
    ∧ gc_managed_addr_p gencgc_layout 0x100000 [example_thread] 0x7f0000000010 = true :=
  ⟨by decide, by decide⟩

/-- C3 fails on the code: with a 1 MiB binding stack on a 64-bit build, the
first byte past the binding stack of the example thread is reported managed,
although the heap oracle rejects it and it lies in no control stack and in no
binding stack of a registered thread. -/
theorem managed_contains_accepts_address_past_binding_stack :
    gc_managed_addr_p gencgc_layout 0x100000 [example_thread] 0x7f0000300000 = true
    ∧ gc_managed_heap_space_p gencgc_layout 0x7f0000300000 = false
    ∧ (∀ th ∈ [example_thread],
        ¬ (th.control_stack_start ≤ 0x7f0000300000 ∧ 0x7f0000300000 < th.control_stack_end)
        ∧ ¬ (th.binding_stack_start ≤ 0x7f0000300000
              ∧ 0x7f0000300000 < th.binding_stack_start + 0x100000)) := by
  refine ⟨by decide, by decide, ?_⟩
  intro th hth
  rw [List.mem_singleton] at hth
  subst hth
  decide

/-! ## Linkage-table prelinking -/

theorem int_wrap_of_small (x : Int) (h0 : 0 ≤ x) (h1 : x < 2 ^ 31) : int_wrap x = x := by
  unfold int_wrap
  omega

theorem os_link_runtime_loop_n_prelinked (cfg : LinkConfig) (vals : Nat → Nat) (count : Nat) :
    ∀ (ptr : Nat) (i : Int) (s : LinkState),
      (os_link_runtime_loop cfg vals count ptr i s).lisp_linkage_table_n_prelinked
        = s.lisp_linkage_table_n_prelinked := by
  induction count with
  | zero => intro ptr i s; rfl
  | succ n ih =>
      intro ptr i s
      simp only [os_link_runtime_loop]
      rw [ih]
      split_ifs <;> rfl

/-- The loop, started at cursor `ptr` and index `i` on an array that holds
the encoding of `entries` from `ptr` on, appends the expected writes. -/
theorem os_link_runtime_loop_writes (cfg : LinkConfig) (vals : Nat → Nat) :
    ∀ (entries : List LinkRef) (ptr : Nat) (i : Int) (s : LinkState),
      (∀ e ∈ entries, e.well_formed cfg.word) →
      (∀ k, k < (spec_encode cfg.word entries).length →
        vals (ptr + k) = (spec_encode cfg.word entries).getD k 0) →
      0 ≤ i → i + entries.length < 2 ^ 31 →
      (os_link_runtime_loop cfg vals entries.length ptr i s).linkage_writes
        = s.linkage_writes ++ spec_link_entries i entries := by
  intro entries
  induction entries with
  | nil => intro ptr i s _ _ _ _; simp [os_link_runtime_loop, spec_link_entries]
  | cons e rest ih =>
      intro ptr i s hwf henc hi hlen
      have hwf_rest : ∀ e ∈ rest, e.well_formed cfg.word :=
        fun e he => hwf e (List.mem_cons_of_mem _ he)
      have hlen1 : i + 1 + (rest.length : Int) < 2 ^ 31 := by
        simp only [List.length_cons, Nat.cast_add, Nat.cast_one] at hlen
        omega
      have hi1 : int_wrap (i + 1) = i + 1 := int_wrap_of_small _ (by omega) (by omega)
      cases e with
      | function a =>
          have ha : a ≠ cfg.word.modulus - 1 := hwf (.function a) (List.mem_cons_self _ _)
          have h0 : vals ptr = a := by
            have := henc 0 (by simp [spec_encode])
            simpa [spec_encode] using this
          have hrest : ∀ k, k < (spec_encode cfg.word rest).length →
              vals (ptr + 1 + k) = (spec_encode cfg.word rest).getD k 0 := by
            intro k hk
            have := henc (k + 1) (by simp [spec_encode]; omega)
            simpa [spec_encode, Nat.add_assoc, Nat.add_comm 1 k] using this
          simp only [List.length_cons, os_link_runtime_loop, h0, ha, decide_False,
            Bool.false_eq_true, if_false, hi1]
          rw [ih (ptr + 1) (i + 1) _ hwf_rest hrest (by omega) hlen1]
          split_ifs <;> simp [spec_link_entries]
      | data a =>
          have h0 : vals ptr = cfg.word.modulus - 1 := by
            have := henc 0 (by simp [spec_encode])
            simpa [spec_encode] using this
          have h1 : vals (ptr + 1) = a := by
            have := henc 1 (by simp [spec_encode])
            simpa [spec_encode] using this
          have hrest : ∀ k, k < (spec_encode cfg.word rest).length →
              vals (ptr + 1 + 1 + k) = (spec_encode cfg.word rest).getD k 0 := by
            intro k hk
            have := henc (k + 2) (by simp [spec_encode]; omega)
            simpa [spec_encode, Nat.add_assoc, Nat.add_comm 2 k] using this
          simp only [List.length_cons, os_link_runtime_loop, h0, decide_True, if_true, h1, hi1]
          rw [ih (ptr + 1 + 1) (i + 1) _ hwf_rest hrest (by omega) hlen1]
          split_ifs <;> simp [spec_link_entries]

theorem spec_encode_replicate_function (w : WordSize) (a n : Nat) :
    spec_encode w (List.replicate n (.function a)) = List.replicate n a := by
  induction n with
  | zero => rfl
  | succ n ih => simp [List.replicate_succ, spec_encode, ih]

/-- A constant array announcing `n` function references to the address `a` encodes them. -/
theorem spec_array_encodes_replicate (w : WordSize) (vals : Nat → Nat) (a n : Nat)
    (h0 : vals 0 = n) (h : ∀ i, vals (i + 1) = a) :
    spec_array_encodes w vals (List.replicate n (.function a)) := by
  refine ⟨by rw [List.length_replicate]; exact h0, ?_⟩
  intro i hi
  rw [spec_encode_replicate_function] at hi ⊢
  rw [List.length_replicate] at hi
  rw [h i]
  simp [List.getD_eq_getElem?_getD, hi]

/-- C5, as stated, fails: a 64-bit descriptor array that announces and
encodes `2 ^ 32` function references is present, yet `os_link_runtime` holds
the count in an `int`, which makes it `0`, and writes no entry. -/
theorem os_link_runtime_count_truncated :
    (link_config (some huge_descriptor)).LISP_FEATURE_LINKAGE_TABLE = true
    ∧ (link_config (some huge_descriptor)).lisp_linkage_values = some huge_descriptor
    ∧ (∀ e ∈ List.replicate (2 ^ 32) (LinkRef.function 0xA000), e.well_formed .w64)
    ∧ spec_array_encodes .w64 huge_descriptor (List.replicate (2 ^ 32) (.function 0xA000))
    ∧ (List.replicate (2 ^ 32) (LinkRef.function 0xA000)).length = 2 ^ 32
    ∧ (os_link_runtime (link_config (some huge_descriptor)) LinkState.initial).linkage_writes
        = []
    ∧ (os_link_runtime (link_config (some huge_descriptor))
        LinkState.initial).lisp_linkage_table_n_prelinked = 0 := by
  have hiter : int_iterations (to_int (huge_descriptor 0)) = 0 := by decide
  have hcount : to_int (huge_descriptor 0) = 0 := by decide
  refine ⟨rfl, rfl, ?_, ?_, List.length_replicate _ _, ?_, ?_⟩
  · intro e he
    have hfun : e = LinkRef.function 0xA000 := List.eq_of_mem_replicate he
    subst hfun
    show (0xA000 : Nat) ≠ 2 ^ 64 - 1
    decide
  · exact spec_array_encodes_replicate .w64 huge_descriptor 0xA000 (2 ^ 32) rfl (fun i => rfl)
  · simp only [os_link_runtime, link_config, if_true, hiter, os_link_runtime_loop]
    rfl
  · simp only [os_link_runtime, link_config, if_true, hiter, hcount, os_link_runtime_loop]

/-- C5, amended: in a build with the linkage table, for a present descriptor
array `[N, w_1, ...]` that encodes `N` logical entries with `N < 2 ^ 31` (the
count fits the C `int` it is held in), `os_link_runtime` appends exactly the
`N` writes of the entries, in order, the `i`-th at index `i` with the entry's
target and kind, and records `N` in `lisp_linkage_table_n_prelinked`. -/
theorem os_link_runtime_writes_entries (cfg : LinkConfig) (vals : Nat → Nat)
    (entries : List LinkRef) (s : LinkState)
    (hfeat : cfg.LISP_FEATURE_LINKAGE_TABLE = true)
    (hvals : cfg.lisp_linkage_values = some vals)
    (hwf : ∀ e ∈ entries, e.well_formed cfg.word)
    (henc : spec_array_encodes cfg.word vals entries)
    (hN : entries.length < 2 ^ 31) :
    (os_link_runtime cfg s).linkage_writes = s.linkage_writes ++ spec_link_entries 0 entries
    ∧ (spec_link_entries 0 entries).length = entries.length
    ∧ (os_link_runtime cfg s).lisp_linkage_table_n_prelinked = entries.length := by
  have hcount : to_int (vals 0) = (entries.length : Int) := by
    rw [henc.1]
    exact int_wrap_of_small _ (by omega) (by exact_mod_cast hN)
  have hiter : int_iterations (to_int (vals 0)) = entries.length := by
    rw [hcount]
    unfold int_iterations
    omega
  have hlenspec : ∀ (l : List LinkRef) (i : Int), (spec_link_entries i l).length = l.length := by
    intro l
    induction l with
    | nil => intro i; rfl
    | cons e rest ih => intro i; cases e <;> simp [spec_link_entries, ih]
  refine ⟨?_, hlenspec _ _, ?_⟩
  · simp only [os_link_runtime, hfeat, if_true, hvals, hiter]
    rw [os_link_runtime_loop_writes cfg vals entries 1 0 _ hwf]
    · intro k hk
      rw [Nat.add_comm]
      exact henc.2 k hk
    · exact le_refl _
    · simpa using (by exact_mod_cast hN : (entries.length : Int) < 2 ^ 31)
  · simp only [os_link_runtime, hfeat, if_true, hvals, hiter]
    rw [os_link_runtime_loop_n_prelinked, hcount]

/-- Witness for C5 (amended): the array `[2, 0xA000, -1, 0xB000]` yields the
function entry `0xA000` at index 0 and the data entry `0xB000` at index 1. -/
theorem os_link_runtime_writes_entries_witness :
    (os_link_runtime (link_config (some example_descriptor)) LinkState.initial).linkage_writes
      = [⟨0, 0xA000, false⟩, ⟨1, 0xB000, true⟩]
    ∧ (os_link_runtime (link_config (some example_descriptor))
        LinkState.initial).lisp_linkage_table_n_prelinked = 2 := by
  have h := os_link_runtime_writes_entries (link_config (some example_descriptor))
    example_descriptor [.function 0xA000, .data 0xB000] LinkState.initial rfl rfl
    (by
      intro e he
      simp only [List.mem_cons, List.mem_singleton, List.not_mem_nil, or_false] at he
      rcases he with rfl | rfl
      · simp [LinkRef.well_formed, link_config, WordSize.modulus, WordSize.N_WORD_BITS,
          WordSize.N_WORD_BYTES]
      · trivial)
    (by
      refine ⟨rfl, ?_⟩
      intro i hi
      simp only [spec_encode, link_config, List.length_cons, List.length_nil] at hi
      interval_cases i <;> rfl)
    (by decide)
  exact ⟨h.1, h.2.2⟩

/-- C9: when the descriptor array is absent, `os_link_runtime` changes nothing:
no linkage-table entry is written, `lisp_linkage_table_n_prelinked` keeps its
value, and the routine returns (it has no fatal path). -/
theorem os_link_runtime_absent_array (cfg : LinkConfig) (s : LinkState)
    (h : cfg.lisp_linkage_values = none) :
    os_link_runtime cfg s = s := by
  unfold os_link_runtime
  split_ifs
  · simp [h]
  · rfl

/-- Witness for C9: a build with the linkage table and no descriptor array. -/
theorem os_link_runtime_absent_array_witness :
    (link_config none).lisp_linkage_values = none
    ∧ os_link_runtime (link_config none) ⟨7, [⟨0, 0xA000, false⟩], []⟩
        = ⟨7, [⟨0, 0xA000, false⟩], []⟩ :=
  ⟨rfl, os_link_runtime_absent_array (link_config none) _ rfl⟩

/-! ## Core image loader -/

/-- C6: on the memory-mapping path `load_core_bytes` ends in `lose` exactly
when `mmap` fails or a non-null `addr` differs from the address `mmap`
answered; otherwise it returns the address `mmap` answered, which is `addr`
when `addr` is not null. -/
theorem load_core_bytes_fatal_iff (K : MmapConsts) (mmap : MmapCall → Nat)
    (fd : Int) (offset addr len : Nat) :
    (load_core_bytes K mmap fd offset addr len = .lose ↔
      mmap (load_core_bytes_mmap_call K fd offset addr len) = K.MAP_FAILED
      ∨ (addr ≠ 0 ∧ mmap (load_core_bytes_mmap_call K fd offset addr len) ≠ addr))
    ∧ (load_core_bytes K mmap fd offset addr len ≠ .lose →
        load_core_bytes K mmap fd offset addr len
          = .returned (mmap (load_core_bytes_mmap_call K fd offset addr len))
        ∧ (addr ≠ 0 → mmap (load_core_bytes_mmap_call K fd offset addr len) = addr)) := by
  unfold load_core_bytes
  by_cases h1 : mmap (load_core_bytes_mmap_call K fd offset addr len) = K.MAP_FAILED
  · simp [h1]
  · by_cases h2 : addr = 0
    · simp [h1, h2]
    · by_cases h3 : addr = mmap (load_core_bytes_mmap_call K fd offset addr len)
      · simp [h1, h2, ← h3]
      · have h4 : mmap (load_core_bytes_mmap_call K fd offset addr len) ≠ addr := Ne.symm h3
        simp [h1, h2, h3, h4]

/-! ## Page allocator: `os_zero` -/

theorem word_sub_eq_sub (w : WordSize) (a b : Nat) (hb : b ≤ a) (ha : a < w.modulus) :
    word_sub w a b = a - b := by
  unfold word_sub
  rw [Nat.mod_eq_of_lt ha, Nat.mod_eq_of_lt (lt_of_le_of_lt hb ha)]
  have h : a + (w.modulus - b) = (a - b) + w.modulus := by omega
  rw [h, Nat.add_mod_right, Nat.mod_eq_of_lt]
  omega

/-- Rounding an unaligned address up to a page, when the sum does not wrap. -/
theorem os_zero_block_start_of_unaligned (w : WordSize) (ps addr : Nat) (hps : 0 < ps)
    (hq : addr % ps ≠ 0) (hfit : addr + (ps - 1) < w.modulus) :
    os_zero_block_start w ps addr = addr + (ps - addr % ps)
    ∧ (addr + (ps - addr % ps)) % ps = 0 := by
  have hlt : addr % ps < ps := Nat.mod_lt _ hps
  have hdiv : ps * (addr / ps) + addr % ps = addr := Nat.div_add_mod addr ps
  have ht : addr + (ps - 1) = ps * (addr / ps + 1) + (addr % ps - 1) := by
    rw [Nat.mul_succ]; omega
  have hup : addr + (ps - addr % ps) = ps * (addr / ps + 1) := by
    rw [Nat.mul_succ]; omega
  have hmod : (addr + (ps - 1)) % ps = addr % ps - 1 := by
    rw [ht, Nat.mul_add_mod]
    exact Nat.mod_eq_of_lt (by omega)
  constructor
  · unfold os_zero_block_start os_round_up_to_page os_trunc_to_page word_add
    rw [Nat.mod_eq_of_lt hfit, hmod]
    omega
  · rw [hup, Nat.mul_mod_right]

theorem os_trunc_size_to_page_facts (ps n : Nat) (hps : 0 < ps) :
    os_trunc_size_to_page ps n + n % ps = n ∧ n % ps < ps := by
  unfold os_trunc_size_to_page
  have := Nat.mod_le n ps
  have := Nat.mod_lt n hps
  omega

/-- With an empty middle block `os_zero` stops after the fragments. -/
theorem os_zero_of_block_empty (w : WordSize) (ps : Nat) (port : VMPort) (mem : Memory)
    (addr length : Nat) (h : os_zero_block_size w ps addr length = 0) :
    os_zero w ps port mem addr length
      = ⟨os_zero_fragments w ps mem addr length, .returned ()⟩ := by
  simp [os_zero, h]

/-- With a non-empty middle block `os_zero` releases and re-validates it and
compares the address answered with `block_start`. -/
theorem os_zero_of_block_nonempty (w : WordSize) (ps : Nat) (port : VMPort) (mem : Memory)
    (addr length : Nat) (h : os_zero_block_size w ps addr length ≠ 0) :
    os_zero w ps port mem addr length
      = if (port.os_validate
              (port.os_invalidate (os_zero_fragments w ps mem addr length).mem
                (os_zero_block_start w ps addr) (os_zero_block_size w ps addr length))
              NOT_MOVABLE (os_zero_block_start w ps addr)
              (os_zero_block_size w ps addr length)).1 = 0
            ∨ (port.os_validate
              (port.os_invalidate (os_zero_fragments w ps mem addr length).mem
                (os_zero_block_start w ps addr) (os_zero_block_size w ps addr length))
              NOT_MOVABLE (os_zero_block_start w ps addr)
              (os_zero_block_size w ps addr length)).1 ≠ os_zero_block_start w ps addr
        then
          ⟨⟨(port.os_validate
              (port.os_invalidate (os_zero_fragments w ps mem addr length).mem
                (os_zero_block_start w ps addr) (os_zero_block_size w ps addr length))
              NOT_MOVABLE (os_zero_block_start w ps addr)
              (os_zero_block_size w ps addr length)).2,
            (os_zero_fragments w ps mem addr length).calls ++
              [.os_invalidate (os_zero_block_start w ps addr)
                  (os_zero_block_size w ps addr length),
               .os_validate NOT_MOVABLE (os_zero_block_start w ps addr)
                  (os_zero_block_size w ps addr length),
               .lose]⟩, .lose⟩
        else
          ⟨⟨(port.os_validate
              (port.os_invalidate (os_zero_fragments w ps mem addr length).mem
                (os_zero_block_start w ps addr) (os_zero_block_size w ps addr length))
              NOT_MOVABLE (os_zero_block_start w ps addr)
              (os_zero_block_size w ps addr length)).2,
            (os_zero_fragments w ps mem addr length).calls ++
              [.os_invalidate (os_zero_block_start w ps addr)
                  (os_zero_block_size w ps addr length),
               .os_validate NOT_MOVABLE (os_zero_block_start w ps addr)
                  (os_zero_block_size w ps addr length)]⟩, .returned ()⟩ := by
  simp only [os_zero, os_zero_revalidate, h, ne_eq, not_false_eq_true, if_true]
  split_ifs <;> simp

/-- The fragments step makes `bzero` calls only. -/
theorem os_zero_fragments_calls_bzero (w : WordSize) (ps : Nat) (mem : Memory)
    (addr length : Nat) :
    ∀ c ∈ (os_zero_fragments w ps mem addr length).calls, ∃ a n, c = VMCall.bzero a n := by
  intro c hc
  unfold os_zero_fragments at hc
  simp only at hc
  split_ifs at hc <;> simp at hc
  all_goals (rcases hc with rfl | rfl <;> exact ⟨_, _, rfl⟩)

/-- In terms of its own locals, `os_zero` ends in `lose` exactly when
`block_size` is not zero and re-validating the block answers null or an
address other than `block_start`; with `block_size` zero it makes no call but
`bzero` and returns. -/
theorem os_zero_lose_iff_locals (w : WordSize) (ps : Nat) (port : VMPort) (mem : Memory)
    (addr length : Nat) :
    ((os_zero w ps port mem addr length).outcome = .lose ↔
      os_zero_block_size w ps addr length ≠ 0
      ∧ ((port.os_validate
              (port.os_invalidate (os_zero_fragments w ps mem addr length).mem
                (os_zero_block_start w ps addr) (os_zero_block_size w ps addr length))
              NOT_MOVABLE (os_zero_block_start w ps addr)
              (os_zero_block_size w ps addr length)).1 = 0
          ∨ (port.os_validate
              (port.os_invalidate (os_zero_fragments w ps mem addr length).mem
                (os_zero_block_start w ps addr) (os_zero_block_size w ps addr length))
              NOT_MOVABLE (os_zero_block_start w ps addr)
              (os_zero_block_size w ps addr length)).1 ≠ os_zero_block_start w ps addr))
    ∧ (os_zero_block_size w ps addr length = 0 →
        (os_zero w ps port mem addr length).outcome = .returned ()
        ∧ ∀ c ∈ (os_zero w ps port mem addr length).state.calls,
            ∃ a n, c = VMCall.bzero a n) := by
  constructor
  · by_cases h : os_zero_block_size w ps addr length = 0
    · rw [os_zero_of_block_empty w ps port mem addr length h]
      simp [h]
    · rw [os_zero_of_block_nonempty w ps port mem addr length h]
      split_ifs with hr
      · simp [h, hr]
      · simp only [ne_eq, h, not_false_eq_true, true_and]
        constructor
        · intro hc; cases hc
        · intro hc; exact absurd hc hr
  · intro h
    rw [os_zero_of_block_empty w ps port mem addr length h]
    exact ⟨rfl, os_zero_fragments_calls_bzero w ps mem addr length⟩

/-- The facts about the locals of `os_zero` on a range made of a partial
leading fragment, at least one full page and a partial trailing fragment. -/
theorem os_zero_locals_of_three_part_range (w : WordSize) (ps addr length : Nat)
    (hps : 0 < ps) (hfit : addr + length ≤ w.modulus) (hlead : addr % ps ≠ 0)
    (hpage : addr + (ps - addr % ps) + ps ≤ addr + length)
    (htrail : (addr + length) % ps ≠ 0) :
    os_zero_block_start w ps addr = addr + (ps - addr % ps)
    ∧ word_sub w (os_zero_block_start w ps addr) addr = ps - addr % ps
    ∧ os_zero_length w ps addr length = length - (ps - addr % ps)
    ∧ addr < os_zero_block_start w ps addr
    ∧ ps ≤ os_zero_block_size w ps addr length
    ∧ os_zero_block_size w ps addr length < os_zero_length w ps addr length
    ∧ os_zero_block_start w ps addr + os_zero_length w ps addr length = addr + length := by
  have hq : addr % ps < ps := Nat.mod_lt _ hps
  have haddr : 0 < addr := by
    rcases Nat.eq_zero_or_pos addr with h | h
    · rw [h] at hlead; simp at hlead
    · exact h
  obtain ⟨hbs, hbsmod⟩ := os_zero_block_start_of_unaligned w ps addr hps hlead (by omega)
  have hsub : word_sub w (os_zero_block_start w ps addr) addr = ps - addr % ps := by
    rw [hbs, word_sub_eq_sub w _ addr (by omega) (by omega)]
    omega
  have hlen : os_zero_length w ps addr length = length - (ps - addr % ps) := by
    unfold os_zero_length
    rw [hsub, word_sub_eq_sub w length _ (by omega) (by omega)]
  obtain ⟨ht1, ht2⟩ := os_trunc_size_to_page_facts ps (length - (ps - addr % ps)) hps
  have hsplit : addr + length = (addr + (ps - addr % ps)) + (length - (ps - addr % ps)) := by
    omega
  have hrem : (length - (ps - addr % ps)) % ps ≠ 0 := by
    intro h0
    apply htrail
    rw [hsplit, Nat.add_mod, hbsmod, h0]
    simp
  have hbsz : os_zero_block_size w ps addr length
      = os_trunc_size_to_page ps (length - (ps - addr % ps)) := by
    unfold os_zero_block_size
    rw [hlen]
  have hmul : ps ≤ os_trunc_size_to_page ps (length - (ps - addr % ps)) := by
    have hdvd : ps ∣ os_trunc_size_to_page ps (length - (ps - addr % ps)) := by
      unfold os_trunc_size_to_page
      exact Nat.dvd_sub_mod _
    apply Nat.le_of_dvd _ hdvd
    omega
  refine ⟨hbs, hsub, hlen, by omega, by omega, by omega, by omega⟩

/-- C7: on a range `[addr, addr+length)` made of a partial leading fragment,
at least one full page and a partial trailing fragment, when the
re-validation of the middle block is answered with the block's start and
yields zero-filled pages, `os_zero` returns and every byte of the range reads
as zero; it got there by clearing the two fragments and releasing and
re-validating the middle block. -/
theorem os_zero_leaves_range_zero (w : WordSize) (ps : Nat) (port : VMPort) (mem : Memory)
    (addr length : Nat)
    (hps : 0 < ps) (hfit : addr + length ≤ w.modulus) (hlead : addr % ps ≠ 0)
    (hpage : addr + (ps - addr % ps) + ps ≤ addr + length)
    (htrail : (addr + length) % ps ≠ 0)
    (hport : port.zero_fill_on_demand)
    (hsame : (port.os_validate
              (port.os_invalidate (os_zero_fragments w ps mem addr length).mem
                (os_zero_block_start w ps addr) (os_zero_block_size w ps addr length))
              NOT_MOVABLE (os_zero_block_start w ps addr)
              (os_zero_block_size w ps addr length)).1 = os_zero_block_start w ps addr) :
    (os_zero w ps port mem addr length).outcome = .returned ()
    ∧ (∀ x, addr ≤ x → x < addr + length →
        (os_zero w ps port mem addr length).state.mem x = 0)
    ∧ (os_zero w ps port mem addr length).state.calls
        = [.bzero addr (os_zero_block_start w ps addr - addr),
           .bzero (os_zero_block_start w ps addr + os_zero_block_size w ps addr length)
              (addr + length
                - (os_zero_block_start w ps addr + os_zero_block_size w ps addr length)),
           .os_invalidate (os_zero_block_start w ps addr) (os_zero_block_size w ps addr length),
           .os_validate NOT_MOVABLE (os_zero_block_start w ps addr)
              (os_zero_block_size w ps addr length)] := by
  obtain ⟨hbs, hsub, hlen, hgt, hbszge, hbszlt, hsum⟩ :=
    os_zero_locals_of_three_part_range w ps addr length hps hfit hlead hpage htrail
  have hne : os_zero_block_size w ps addr length ≠ 0 := by omega
  have hfrag : os_zero_fragments w ps mem addr length
      = ⟨bzero (bzero mem addr (os_zero_block_start w ps addr - addr))
            (os_zero_block_start w ps addr + os_zero_block_size w ps addr length)
            (addr + length
              - (os_zero_block_start w ps addr + os_zero_block_size w ps addr length)),
          [.bzero addr (os_zero_block_start w ps addr - addr),
           .bzero (os_zero_block_start w ps addr + os_zero_block_size w ps addr length)
              (addr + length
                - (os_zero_block_start w ps addr + os_zero_block_size w ps addr length))]⟩ := by
    have e1 : word_sub w (os_zero_block_start w ps addr) addr
        = os_zero_block_start w ps addr - addr := by rw [hsub, hbs]; omega
    have e2 : os_zero_length w ps addr length - os_zero_block_size w ps addr length
        = addr + length
          - (os_zero_block_start w ps addr + os_zero_block_size w ps addr length) := by omega
    have e3 : ptr_add w 1 (os_zero_block_start w ps addr) (os_zero_block_size w ps addr length)
        = os_zero_block_start w ps addr + os_zero_block_size w ps addr length := by
      unfold ptr_add
      rw [mul_one, Nat.mod_eq_of_lt (by omega)]
    simp only [os_zero_fragments, gt_iff_lt, hgt, hbszlt, if_true, e1, e2, e3,
      List.singleton_append]
  have hnot : ¬ ((port.os_validate
              (port.os_invalidate (os_zero_fragments w ps mem addr length).mem
                (os_zero_block_start w ps addr) (os_zero_block_size w ps addr length))
              NOT_MOVABLE (os_zero_block_start w ps addr)
              (os_zero_block_size w ps addr length)).1 = 0
            ∨ (port.os_validate
              (port.os_invalidate (os_zero_fragments w ps mem addr length).mem
                (os_zero_block_start w ps addr) (os_zero_block_size w ps addr length))
              NOT_MOVABLE (os_zero_block_start w ps addr)
              (os_zero_block_size w ps addr length)).1 ≠ os_zero_block_start w ps addr) := by
    rw [hsame]
    rintro (h | h)
    · omega
    · exact h rfl
  rw [os_zero_of_block_nonempty w ps port mem addr length hne, if_neg hnot]
  refine ⟨rfl, ?_, ?_⟩
  · intro x hx1 hx2
    show (port.os_validate _ _ _ _).2 x = 0
    rw [hport.2 _ _ _ _ hsame x]
    split_ifs with hblock
    · rfl
    · rw [hport.1 _ _ _ _ hblock, hfrag]
      simp only [bzero]
      by_cases hx : x < os_zero_block_start w ps addr
      · have h1 : addr ≤ x ∧ x < addr + (os_zero_block_start w ps addr - addr) := by omega
        simp [h1]
      · have h2 : os_zero_block_start w ps addr + os_zero_block_size w ps addr length ≤ x
            ∧ x < os_zero_block_start w ps addr + os_zero_block_size w ps addr length
                + (addr + length - (os_zero_block_start w ps addr
                    + os_zero_block_size w ps addr length)) := by omega
        simp [h2]
  · show (os_zero_fragments w ps mem addr length).calls ++ _ = _
    rw [hfrag]
    rfl

/-- Witness for C7: the range `[0x1F00, 0x3100)` with 4 KiB pages, on a
memory full of `0xFF` and a port that maps where it is asked to. -/
theorem os_zero_leaves_range_zero_witness :
    demand_zero_port.zero_fill_on_demand
    ∧ (os_zero .w64 0x1000 demand_zero_port garbage_memory 0x1F00 0x1200).outcome
        = .returned ()
    ∧ (∀ x, 0x1F00 ≤ x → x < 0x1F00 + 0x1200 →
        (os_zero .w64 0x1000 demand_zero_port garbage_memory 0x1F00 0x1200).state.mem x = 0) := by
  have hport : demand_zero_port.zero_fill_on_demand := by
    constructor
    · intro m a n x hx
      simp [demand_zero_port, hx]
    · intro m mv a n _ x
      rfl
  have h := os_zero_leaves_range_zero .w64 0x1000 demand_zero_port garbage_memory 0x1F00 0x1200
    (by decide) (by decide) (by decide) (by decide) (by decide) hport rfl
  exact ⟨hport, h.1, h.2.1⟩

theorem page_multiple_add_page_le (ps m a : Nat) (hdvd : ps ∣ m) (ha : a % ps = 0)
    (hlt : a < m) : a + ps ≤ m := by
  obtain ⟨k, rfl⟩ := hdvd
  obtain ⟨d, rfl⟩ := Nat.dvd_of_mod_eq_zero ha
  have hps : 0 < ps := by
    rcases Nat.eq_zero_or_pos ps with h | h
    · subst h; simp at hlt
    · exact h
  have hdk : d < k := Nat.lt_of_mul_lt_mul_left hlt
  have := Nat.mul_le_mul_left ps (Nat.succ_le_of_lt hdk)
  rw [Nat.mul_succ] at this
  exact this

/-- Rounding a page-aligned address up to a page gives the address itself. -/
theorem os_zero_block_start_of_aligned (w : WordSize) (ps addr : Nat) (hps : 0 < ps)
    (hdvd : ps ∣ w.modulus) (hq : addr % ps = 0) (hlt : addr < w.modulus) :
    os_zero_block_start w ps addr = addr := by
  have hle := page_multiple_add_page_le ps w.modulus addr hdvd hq hlt
  obtain ⟨d, hd⟩ := Nat.dvd_of_mod_eq_zero hq
  have hmod : (addr + (ps - 1)) % ps = ps - 1 := by
    rw [hd, Nat.mul_add_mod]
    exact Nat.mod_eq_of_lt (by omega)
  unfold os_zero_block_start os_round_up_to_page os_trunc_to_page word_add
  rw [Nat.mod_eq_of_lt (by omega), hmod]
  omega

/-- The split computed by `os_zero` on a range that reaches the page boundary
at or above `addr` and ends below the top of the address space, for a page
size that divides the word modulus: the leading fragment `[addr, block_start)`,
the page-aligned middle block and the trailing fragment of less than a page
tile `[addr, addr+length)`. -/
theorem os_zero_split_of_reaching_range (w : WordSize) (ps addr length : Nat)
    (hps : 0 < ps) (hdvd : ps ∣ w.modulus) (hfit : addr + length < w.modulus)
    (hreach : (ps - addr % ps) % ps ≤ length) :
    os_zero_block_start w ps addr = addr + (ps - addr % ps) % ps
    ∧ os_zero_block_start w ps addr % ps = 0
    ∧ word_sub w (os_zero_block_start w ps addr) addr = (ps - addr % ps) % ps
    ∧ os_zero_length w ps addr length = length - (ps - addr % ps) % ps
    ∧ os_zero_block_size w ps addr length % ps = 0
    ∧ os_zero_block_size w ps addr length ≤ os_zero_length w ps addr length
    ∧ os_zero_length w ps addr length - os_zero_block_size w ps addr length < ps
    ∧ os_zero_block_start w ps addr + os_zero_length w ps addr length = addr + length := by
  have hq : addr % ps < ps := Nat.mod_lt _ hps
  have hstart : os_zero_block_start w ps addr = addr + (ps - addr % ps) % ps
      ∧ os_zero_block_start w ps addr % ps = 0 := by
    by_cases h0 : addr % ps = 0
    · rw [os_zero_block_start_of_aligned w ps addr hps hdvd h0 (by omega), h0]
      simp
    · have hg : (ps - addr % ps) % ps = ps - addr % ps := Nat.mod_eq_of_lt (by omega)
      rw [hg] at hreach ⊢
      have hdiv : ps * (addr / ps) + addr % ps = addr := Nat.div_add_mod addr ps
      have hup : addr + (ps - addr % ps) = ps * (addr / ps + 1) := by
        rw [Nat.mul_succ]; omega
      have hupmod : (addr + (ps - addr % ps)) % ps = 0 := by rw [hup, Nat.mul_mod_right]
      have hle := page_multiple_add_page_le ps w.modulus _ hdvd hupmod (by omega)
      obtain ⟨h1, h2⟩ := os_zero_block_start_of_unaligned w ps addr hps h0 (by omega)
      exact ⟨h1, by rw [h1]; exact h2⟩
  obtain ⟨hbs, hbsmod⟩ := hstart
  have hg : (ps - addr % ps) % ps < ps := Nat.mod_lt _ hps
  have hsub : word_sub w (os_zero_block_start w ps addr) addr = (ps - addr % ps) % ps := by
    rw [hbs, word_sub_eq_sub w _ addr (by omega) (by omega)]
    omega
  have hlen : os_zero_length w ps addr length = length - (ps - addr % ps) % ps := by
    unfold os_zero_length
    rw [hsub, word_sub_eq_sub w length _ hreach (by omega)]
  obtain ⟨ht1, ht2⟩ := os_trunc_size_to_page_facts ps (os_zero_length w ps addr length) hps
  have hbszmod : os_zero_block_size w ps addr length % ps = 0 := by
    unfold os_zero_block_size os_trunc_size_to_page
    exact Nat.mod_eq_zero_of_dvd (Nat.dvd_sub_mod _)
  have hbsz : os_zero_block_size w ps addr length
      = os_trunc_size_to_page ps (os_zero_length w ps addr length) := rfl
  refine ⟨hbs, hbsmod, hsub, hlen, hbszmod, by omega, by omega, by omega⟩

/-- On such a range every call of `os_zero` is one of: the clearing of the
leading fragment, the clearing of the trailing fragment, the release or the
re-validation of the middle block, or `lose`. -/
theorem os_zero_calls_of_reaching_range (w : WordSize) (ps : Nat) (port : VMPort)
    (mem : Memory) (addr length : Nat)
    (hps : 0 < ps) (hdvd : ps ∣ w.modulus) (hfit : addr + length < w.modulus)
    (hreach : (ps - addr % ps) % ps ≤ length) :
    ∀ c ∈ (os_zero w ps port mem addr length).state.calls,
      c = .bzero addr (os_zero_block_start w ps addr - addr)
      ∨ c = .bzero (os_zero_block_start w ps addr + os_zero_block_size w ps addr length)
            (addr + length
              - (os_zero_block_start w ps addr + os_zero_block_size w ps addr length))
      ∨ c = .os_invalidate (os_zero_block_start w ps addr) (os_zero_block_size w ps addr length)
      ∨ c = .os_validate NOT_MOVABLE (os_zero_block_start w ps addr)
            (os_zero_block_size w ps addr length)
      ∨ c = .lose := by
  obtain ⟨hbs, _, hsub, _, _, hle, _, hsum⟩ :=
    os_zero_split_of_reaching_range w ps addr length hps hdvd hfit hreach
  have e1 : word_sub w (os_zero_block_start w ps addr) addr
      = os_zero_block_start w ps addr - addr := by rw [hsub, hbs]; omega
  have e2 : os_zero_length w ps addr length - os_zero_block_size w ps addr length
      = addr + length
        - (os_zero_block_start w ps addr + os_zero_block_size w ps addr length) := by omega
  have hfrag : ∀ c ∈ (os_zero_fragments w ps mem addr length).calls,
      c = .bzero addr (os_zero_block_start w ps addr - addr)
      ∨ c = .bzero (os_zero_block_start w ps addr + os_zero_block_size w ps addr length)
            (addr + length
              - (os_zero_block_start w ps addr + os_zero_block_size w ps addr length)) := by
    intro c hc
    have e3 : ptr_add w 1 (os_zero_block_start w ps addr) (os_zero_block_size w ps addr length)
        = os_zero_block_start w ps addr + os_zero_block_size w ps addr length := by
      unfold ptr_add
      rw [mul_one, Nat.mod_eq_of_lt (by omega)]
    simp only [os_zero_fragments, e1, e2, e3] at hc
    split_ifs at hc <;> simp at hc
    all_goals (rcases hc with rfl | rfl <;> simp)
  intro c hc
  by_cases h : os_zero_block_size w ps addr length = 0
  · rw [os_zero_of_block_empty w ps port mem addr length h] at hc
    rcases hfrag c hc with h1 | h1
    · exact Or.inl h1
    · exact Or.inr (Or.inl h1)
  · rw [os_zero_of_block_nonempty w ps port mem addr length h] at hc
    split_ifs at hc
    all_goals
      simp only [List.mem_append, List.mem_cons, List.mem_singleton, List.not_mem_nil,
        or_false] at hc
      rcases hc with hc | hc
      · rcases hfrag c hc with h1 | h1
        · exact Or.inl h1
        · exact Or.inr (Or.inl h1)
      · aesop

/-- On a range that reaches the page boundary at or above `addr`, the locals
`block_start` and `block_size` of `os_zero` are the specification's middle
block: the whole pages inside `[addr, addr+length)`. -/
theorem os_zero_block_eq_spec_middle_block (w : WordSize) (ps addr length : Nat)
    (hps : 0 < ps) (hdvd : ps ∣ w.modulus) (hfit : addr + length < w.modulus)
    (hreach : (ps - addr % ps) % ps ≤ length) :
    os_zero_block_start w ps addr = spec_middle_block_start ps addr
    ∧ os_zero_block_size w ps addr length = spec_middle_block_size ps addr length := by
  obtain ⟨hbs, hbsmod, _, _, _, _, _, hsum⟩ :=
    os_zero_split_of_reaching_range w ps addr length hps hdvd hfit hreach
  have hbsz : os_zero_block_size w ps addr length
      = os_zero_length w ps addr length - os_zero_length w ps addr length % ps := rfl
  have hmod : (addr + length) % ps = os_zero_length w ps addr length % ps := by
    rw [← hsum, Nat.add_mod, hbsmod]
    simp
  have hle := Nat.mod_le (os_zero_length w ps addr length) ps
  refine ⟨hbs, ?_⟩
  unfold spec_middle_block_size spec_middle_block_end spec_middle_block_start
  rw [hbsz, hmod, ← hbs]
  omega

/-- On a range that reaches the page boundary at or above `addr`, `os_zero`
ends in `lose` exactly when the specification's middle block is not empty and
re-validating it answers null or an address other than its start. -/
theorem os_zero_lose_iff_of_reaching_range (w : WordSize) (ps : Nat) (port : VMPort)
    (mem : Memory) (addr length : Nat)
    (hps : 0 < ps) (hdvd : ps ∣ w.modulus) (hfit : addr + length < w.modulus)
    (hreach : (ps - addr % ps) % ps ≤ length) :
    (os_zero w ps port mem addr length).outcome = .lose ↔
      spec_middle_block_size ps addr length ≠ 0
      ∧ ((port.os_validate
            (port.os_invalidate (os_zero_fragments w ps mem addr length).mem
              (spec_middle_block_start ps addr) (spec_middle_block_size ps addr length))
            NOT_MOVABLE (spec_middle_block_start ps addr)
            (spec_middle_block_size ps addr length)).1 = 0
          ∨ (port.os_validate
            (port.os_invalidate (os_zero_fragments w ps mem addr length).mem
              (spec_middle_block_start ps addr) (spec_middle_block_size ps addr length))
            NOT_MOVABLE (spec_middle_block_start ps addr)
            (spec_middle_block_size ps addr length)).1 ≠ spec_middle_block_start ps addr) := by
  obtain ⟨h1, h2⟩ := os_zero_block_eq_spec_middle_block w ps addr length hps hdvd hfit hreach
  rw [← h1, ← h2]
  exact (os_zero_lose_iff_locals w ps port mem addr length).1

/-- C8 fails on the code: the range `[0x1001, 0x1011)` with 4 KiB pages on a
64-bit build holds no full page, so its middle block is empty; yet
`length -= block_start-addr` wraps around, `block_size` becomes
`2 ^ 64 - 0x1000`, and `os_zero` releases and re-validates that block and
ends in `lose` when the re-validation is refused. -/
theorem os_zero_short_range_is_fatal :
    spec_middle_block_size 0x1000 0x1001 0x10 = 0
    ∧ os_zero_block_size .w64 0x1000 0x1001 0x10 = 2 ^ 64 - 0x1000
    ∧ (os_zero .w64 0x1000 refusing_port garbage_memory 0x1001 0x10).outcome = .lose
    ∧ (os_zero .w64 0x1000 refusing_port garbage_memory 0x1001 0x10).state.calls
        = [.bzero 0x1001 0xFFF, .bzero 0x1000 0x11,
           .os_invalidate 0x2000 (2 ^ 64 - 0x1000),
           .os_validate NOT_MOVABLE 0x2000 (2 ^ 64 - 0x1000),
           .lose] := by
  refine ⟨by decide, by decide, by decide, by decide⟩

/-- C10 fails on the code: for the range `[0x1001, 0x1011)` with 4 KiB pages
on a 64-bit build, which ends before the next page boundary `0x2000`,
`length -= block_start-addr` wraps around, the first call clears the 0xFFF
bytes from `0x1001` (so the byte `0x1FFF`, outside the range, is cleared),
and a block of `2 ^ 64 - 0x1000` bytes at `0x2000` is released. -/
theorem os_zero_short_range_touches_outside (port : VMPort) (mem : Memory) :
    os_zero_block_start .w64 0x1000 0x1001 = 0x2000
    ∧ os_zero_length .w64 0x1000 0x1001 0x10 = 2 ^ 64 - 0xFEF
    ∧ os_zero_block_size .w64 0x1000 0x1001 0x10 = 2 ^ 64 - 0x1000
    ∧ (os_zero .w64 0x1000 port mem 0x1001 0x10).state.calls.head?
        = some (.bzero 0x1001 0xFFF)
    ∧ VMCall.os_invalidate 0x2000 (2 ^ 64 - 0x1000)
        ∈ (os_zero .w64 0x1000 port mem 0x1001 0x10).state.calls
    ∧ (os_zero_fragments .w64 0x1000 mem 0x1001 0x10).mem 0x1FFF = 0 := by
  have h1 : os_zero_block_start .w64 0x1000 0x1001 = 0x2000 := by decide
  have h2 : os_zero_length .w64 0x1000 0x1001 0x10 = 2 ^ 64 - 0xFEF := by decide
  have h3 : os_zero_block_size .w64 0x1000 0x1001 0x10 = 2 ^ 64 - 0x1000 := by decide
  have hs : word_sub .w64 0x2000 0x1001 = 0xFFF := by decide
  have hfrag : os_zero_fragments .w64 0x1000 mem 0x1001 0x10
      = ⟨bzero (bzero mem 0x1001 0xFFF) 0x1000 0x11,
          [.bzero 0x1001 0xFFF, .bzero 0x1000 0x11]⟩ := by
    have hp : ptr_add .w64 1 0x2000 (2 ^ 64 - 0x1000) = 0x1000 := by decide
    simp only [os_zero_fragments, h1, h2, h3, hs, hp]
    norm_num
  have hne : os_zero_block_size .w64 0x1000 0x1001 0x10 ≠ 0 := by rw [h3]; decide
  refine ⟨h1, h2, h3, ?_, ?_, ?_⟩
  · rw [os_zero_of_block_nonempty _ _ _ _ _ _ hne, hfrag]
    split_ifs <;> rfl
  · rw [os_zero_of_block_nonempty _ _ _ _ _ _ hne, hfrag, h1, h3]
    split_ifs <;> simp
  · rw [hfrag]
    simp [bzero]

end SBCL
